import Mathlib

/-!
Verification of the `index_permute` crate: an in-place permutation engine.

The definitions below are a shallow embedding of `src/lib.rs`:
* `check_index`, `try_new` embed the index validator `PermuteIndex::check_index`
  and `PermuteIndex::try_new`;
* `try_order_by_index_inplace` embeds the sequential apply
  (temp buffer of moved-out elements, then a write-back loop);
* `try_order_by_index_parallel_inplace_with_threads` embeds the parallel apply
  (threshold fallback, chunked phase-1 writes into a fresh buffer, phase-2 drain).

Machine-level undefined behaviour (an unchecked access that is out of bounds,
reading an uninitialized slot) is made explicit: partial reads return `Option`,
and the apply operations return `ApplyResult.ub` on any such access, so that
unreachability of those branches is a provable statement.

`cycleSwapApply` and its pieces are the one spec-side definition: the cycle-swap
algorithm of spec section 4.2, used to settle the refinement claim that the
sequential code is extensionally equivalent to it.
-/

namespace IndexPermute

/-- Embeds `PermuteError` of `src/lib.rs`: the two error kinds of the crate. -/
inductive PermuteError where
  | InvalidIndex
  | LengthMismatch
deriving DecidableEq, Repr

/-- Embeds `PermuteIndex<T>` of `src/lib.rs`: a wrapper holding the raw index
sequence (the `usize` storage is modelled as `List Nat`). -/
structure PermuteIndex where
  data : List Nat
deriving DecidableEq, Repr

/-- Embeds the loop of `PermuteIndex::check_index` (`src/lib.rs` lines 65-77).
State: `len` is the fixed index length, `seen` the boolean marker array, and the
third argument the values not yet examined.  The Rust condition
`i >= len || seen[i]` short-circuits, so `seen[i]` is only read after
`i < len` is known; that read is modelled by `seen[i]?` and a `none` result
marks the (unreachable) out-of-bounds access. -/
def check_index_go (len : Nat) : List Bool → List Nat → Option Bool
  | _, [] => some true
  | seen, i :: rest =>
    if len ≤ i then some false
    else
      match seen[i]? with
      | none => none
      | some true => some false
      | some false => check_index_go len (seen.set i true) rest

/-- Embeds `PermuteIndex::check_index`: allocates `seen = vec![false; len]` with
`len = index.len()` and runs the marking loop. -/
def check_index (index : List Nat) : Option Bool :=
  check_index_go index.length (List.replicate index.length false) index

/-- Embeds `PermuteIndex::try_new` (`src/lib.rs` lines 100-106): validates and
wraps the index, or reports `InvalidIndex`.  The outer `Option` propagates the
(unreachable) out-of-bounds branch of `check_index`. -/
def try_new (index : List Nat) : Option (Except PermuteError PermuteIndex) :=
  (check_index index).map fun ok =>
    if ok then Except.ok ⟨index⟩ else Except.error PermuteError.InvalidIndex

/-- Turns a list of optional values into an optional list, `none` as soon as one
entry is `none`.  Used to model a loop of unchecked reads: the whole loop is
undefined behaviour if any single read is out of bounds. -/
def sequenceO {α : Type u} : List (Option α) → Option (List α)
  | [] => some []
  | o :: rest => o.bind fun a => (sequenceO rest).map fun l => a :: l

/-- Final state of one apply call on a mutable dataset:
`mismatch d` means the call returned `Err(LengthMismatch)` and the dataset ended
as `d` (the code returns before any write, so `d` is the original dataset);
`ub` means an unchecked access was out of bounds (undefined behaviour);
`ok d` means the call returned `Ok(())` leaving the dataset as `d`. -/
inductive ApplyResult (α : Type u) where
  | mismatch (data : List α)
  | ub
  | ok (data : List α)
deriving DecidableEq, Repr

/-- Embeds `try_order_by_index_inplace` (`src/lib.rs` lines 127-165): after the
length check, the loop `temp[i] = ptr::read(data[indices[i]])` builds the temp
buffer (`sequenceO` of the unchecked reads), and the write-back loop
`data[i] = temp[i]` for `i in 0..len` leaves the dataset equal to `temp`. -/
def try_order_by_index_inplace {α : Type u} (data : List α) (index : PermuteIndex) :
    ApplyResult α :=
  let indices := index.data
  let len := data.length
  if indices.length ≠ len then ApplyResult.mismatch data
  else
    match sequenceO (indices.map fun idx => data[idx]?) with
    | none => ApplyResult.ub
    | some temp => ApplyResult.ok temp

/-- Embeds `slice::chunks(chunk_size)` as used on `indices` and `buffer`
(`src/lib.rs` lines 228-229): consecutive chunks of `chunk_size` elements, the
last chunk possibly shorter.  Structural recursion on a fuel argument that
starts at the list length (each step removes at least one element when
`chunk_size ≠ 0`; Rust panics on a zero chunk size, modelled as `[]`). -/
def chunksGo {α : Type u} (chunk_size : Nat) : Nat → List α → List (List α)
  | _, [] => []
  | 0, _ :: _ => []
  | fuel + 1, l => l.take chunk_size :: chunksGo chunk_size fuel (l.drop chunk_size)

/-- Chunking of a list, see `chunksGo`. -/
def chunks {α : Type u} (chunk_size : Nat) (l : List α) : List (List α) :=
  if chunk_size = 0 then [] else chunksGo chunk_size l.length l

/-- Embeds phase 1 of the parallel path (`src/lib.rs` lines 230-244): the index
chunks are zipped with the equally-sized buffer chunks, and the worker owning
chunk pair `(indices_slice, buffer_slice)` writes
`buffer_slice[i] = ptr::read(data[indices_slice[i]])` for each offset `i`.
The flattened buffer contents are returned; a `none` slot is an out-of-bounds
unchecked read by the owning worker. -/
def phase1_buffer {α : Type u} (data : List α) (indices : List Nat) (chunk_size : Nat) :
    List (Option α) :=
  ((chunks chunk_size indices).map fun ch => ch.map fun idx => data[idx]?).flatten

/-- Embeds the buffered branch of
`try_order_by_index_parallel_inplace_with_threads` (`src/lib.rs` lines
214-258): the length recheck, `chunk_size = (len + num_threads - 1) /
num_threads`, phase 1 into the fresh buffer, and the phase-2 drain
`data[i] = buffer[i].read()` for `i in 0..len` (reading an empty slot is
undefined behaviour, collected by `sequenceO`). -/
def parallel_buffered {α : Type u} (data : List α) (indices : List Nat)
    (num_threads : Nat) : ApplyResult α :=
  let len := data.length
  if len ≠ indices.length then ApplyResult.mismatch data
  else
    match sequenceO (phase1_buffer data indices ((len + num_threads - 1) / num_threads)) with
    | none => ApplyResult.ub
    | some res => ApplyResult.ok res

/-- Embeds `try_order_by_index_parallel_inplace_with_threads` (`src/lib.rs`
lines 199-259): below 10000 elements or with at most one thread it delegates to
the sequential apply, otherwise it runs the buffered parallel algorithm. -/
def try_order_by_index_parallel_inplace_with_threads {α : Type u} (data : List α)
    (index : PermuteIndex) (num_threads : Nat) : ApplyResult α :=
  if data.length < 10000 ∨ num_threads ≤ 1 then try_order_by_index_inplace data index
  else parallel_buffered data index.data num_threads

/-- Swap of two positions of a list; out-of-bounds positions leave the list
unchanged.  Elementary building block of the spec's cycle-swap algorithm. -/
def swapL {α : Type u} (l : List α) (i j : Nat) : List α :=
  match l[i]?, l[j]? with
  | some a, some b => (l.set i b).set j a
  | _, _ => l

/-- Applies a list of swap instructions left to right. -/
def applySwaps {α : Type u} (swaps : List (Nat × Nat)) (l : List α) : List α :=
  swaps.foldl (fun acc s => swapL acc s.1 s.2) l

/-- Modelled from the spec: the cycle walk of section 4.2, which is not in
`src/` (the code uses a temp buffer instead); faithful to the spec's words:
starting at `x`, "while `x` unvisited, mark `x` visited, set `x = index[x]`,
and record the pair `(i, x)` as a pending swap".  `fuel` bounds the loop; any
fuel above the number of unvisited positions is enough. -/
def walkCycle (index : List Nat) (i : Nat) : Nat → List Bool → Nat →
    List Bool × List (Nat × Nat)
  | 0, visited, _ => (visited, [])
  | fuel + 1, visited, x =>
    if visited.getD x false then (visited, [])
    else
      let x2 := index.getD x 0
      let rec2 := walkCycle index i fuel (visited.set x true) x2
      (rec2.1, (i, x2) :: rec2.2)

/-- Modelled from the spec: the outer loop of section 4.2 over start positions,
which is not in `src/`: "for each unvisited start position `i` where
`index[i] != i`", trace the cycle and append its pending swaps. -/
def collectLoop (index : List Nat) (len : Nat) :
    List Nat → List Bool × List (Nat × Nat) → List Bool × List (Nat × Nat)
  | [], st => st
  | s :: rest, (visited, swaps) =>
    if visited.getD s false = false ∧ index.getD s 0 ≠ s then
      let walked := walkCycle index s (len + 1) visited s
      collectLoop index len rest (walked.1, swaps ++ walked.2)
    else collectLoop index len rest (visited, swaps)

/-- Modelled from the spec: the full swap list produced by tracing all cycles,
starting from a fresh visited bitmap. -/
def cycle_swaps (index : List Nat) (len : Nat) : List (Nat × Nat) :=
  (collectLoop index len (List.range len) (List.replicate len false, [])).2

/-- Modelled from the spec: the complete cycle-swap permuter of section 4.2,
which is not in `src/`: "after all cycles are traced, reverse the full swap
list and apply swaps sequentially to `data`". -/
def cycleSwapApply {α : Type u} (data : List α) (index : List Nat) : List α :=
  applySwaps (cycle_swaps index data.length).reverse data

/-! ### Basic facts about `sequenceO` -/

theorem sequenceO_map_eq_some {α : Type u} {β : Type v} (f : α → Option β) (l : List α)
    (h : ∀ x ∈ l, (f x).isSome) :
    sequenceO (l.map f) = some (l.filterMap f) := by
  induction l with
  | nil => rfl
  | cons x xs ih =>
    obtain ⟨b, hb⟩ := Option.isSome_iff_exists.mp (h x (List.mem_cons_self ..))
    have ih2 := ih fun y hy => h y (List.mem_cons_of_mem _ hy)
    simp [sequenceO, List.filterMap_cons, hb, ih2]

theorem sequenceO_isSome_iff {α : Type u} (l : List (Option α)) :
    (sequenceO l).isSome ↔ ∀ o ∈ l, o.isSome := by
  induction l with
  | nil => simp [sequenceO]
  | cons o rest ih =>
    cases o with
    | none => simp [sequenceO]
    | some a => simp [sequenceO, ih]

theorem sequenceO_getElem? {α : Type u} (l : List (Option α)) (r : List α)
    (h : sequenceO l = some r) :
    r.length = l.length ∧ ∀ k : Nat, r[k]? = (l[k]?).bind id := by
  induction l generalizing r with
  | nil =>
    simp only [sequenceO, Option.some.injEq] at h
    subst h
    simp
  | cons o rest ih =>
    cases o with
    | none => simp [sequenceO] at h
    | some a =>
      cases hr : sequenceO rest with
      | none => simp [sequenceO, hr] at h
      | some l2 =>
        simp only [sequenceO, hr] at h
        rw [show ((some a).bind fun a => Option.map (fun l => a :: l) (some l2))
            = some (a :: l2) from rfl, Option.some.injEq] at h
        subst h
        obtain ⟨h1, h2⟩ := ih l2 hr
        refine ⟨by simp [h1], fun k => ?_⟩
        cases k with
        | zero => simp
        | succ k => simpa using h2 k

/-! ### Facts about validated permutation indices -/

theorem perm_range_iff (index : List Nat) :
    index.Perm (List.range index.length) ↔
      index.Nodup ∧ ∀ i ∈ index, i < index.length := by
  constructor
  · intro h
    refine ⟨h.nodup_iff.mpr (List.nodup_range _), fun i hi => ?_⟩
    exact List.mem_range.mp (h.mem_iff.mp hi)
  · rintro ⟨hnd, hbd⟩
    refine (hnd.subperm fun i hi => List.mem_range.mpr (hbd i hi)).perm_of_length_le ?_
    simp

theorem perm_range_length {index : List Nat} {n : Nat}
    (h : index.Perm (List.range n)) : index.length = n := by
  simpa using h.length_eq

theorem perm_range_mem {index : List Nat} {n : Nat}
    (h : index.Perm (List.range n)) : ∀ i ∈ index, i < n := by
  intro i hi
  exact List.mem_range.mp (h.mem_iff.mp hi)

theorem range_filterMap_getElem {α : Type u} (data : List α) :
    (List.range data.length).filterMap (fun i => data[i]?) = data := by
  have key : ∀ n, n ≤ data.length →
      (List.range n).filterMap (fun i => data[i]?) = data.take n := by
    intro n
    induction n with
    | zero => simp
    | succ m ih =>
      intro hm
      have hm2 : m < data.length := hm
      rw [List.range_succ, List.filterMap_append, ih (Nat.le_of_succ_le hm),
        List.take_succ]
      simp [List.getElem?_eq_getElem hm2]
  simpa using key data.length le_rfl

/-! ### Characterization of the validator -/

theorem check_index_go_ne_none (len : Nat) (todo : List Nat) :
    ∀ seen : List Bool, seen.length = len → check_index_go len seen todo ≠ none := by
  induction todo with
  | nil => intro seen _; simp [check_index_go]
  | cons i rest ih =>
    intro seen hlen
    rw [check_index_go]
    by_cases hi : len ≤ i
    · simp [hi]
    · have hi2 : i < seen.length := by omega
      rw [if_neg hi, List.getElem?_eq_getElem hi2]
      cases hb : seen[i] with
      | true => simp
      | false => exact ih (seen.set i true) (by simp [hlen])

theorem check_index_go_eq_some_true (len : Nat) (todo : List Nat) :
    ∀ seen : List Bool, seen.length = len →
      (check_index_go len seen todo = some true ↔
        todo.Nodup ∧ ∀ i ∈ todo, i < len ∧ seen[i]? = some false) := by
  induction todo with
  | nil => intro seen _; simp [check_index_go]
  | cons i rest ih =>
    intro seen hlen
    rw [check_index_go]
    by_cases hi : len ≤ i
    · rw [if_pos hi]
      constructor
      · intro h; exact absurd h (by simp)
      · rintro ⟨-, h⟩
        exact absurd (h i (List.mem_cons_self ..)).1 (by omega)
    · have hilt : i < len := by omega
      have hi2 : i < seen.length := by omega
      rw [if_neg hi, List.getElem?_eq_getElem hi2]
      cases hb : seen[i] with
      | true =>
        constructor
        · intro h; exact absurd h (by simp)
        · rintro ⟨-, h⟩
          have := (h i (List.mem_cons_self ..)).2
          rw [List.getElem?_eq_getElem hi2, hb] at this
          exact absurd this (by simp)
      | false =>
        rw [ih (seen.set i true) (by simp [hlen])]
        constructor
        · rintro ⟨hnd, h⟩
          have hnotmem : i ∉ rest := by
            intro hmem
            have := (h i hmem).2
            rw [List.getElem?_set_self hi2] at this
            exact absurd this (by simp)
          refine ⟨List.nodup_cons.mpr ⟨hnotmem, hnd⟩, fun j hj => ?_⟩
          rcases List.mem_cons.mp hj with rfl | hj2
          · exact ⟨hilt, by rw [List.getElem?_eq_getElem hi2, hb]⟩
          · obtain ⟨hjlt, hjseen⟩ := h j hj2
            have hji : i ≠ j := by
              rintro rfl
              rw [List.getElem?_set_self hi2] at hjseen
              exact absurd hjseen (by simp)
            rw [List.getElem?_set_ne hji] at hjseen
            exact ⟨hjlt, hjseen⟩
        · rintro ⟨hnd, h⟩
          obtain ⟨hnotmem, hnd2⟩ := List.nodup_cons.mp hnd
          refine ⟨hnd2, fun j hj => ?_⟩
          obtain ⟨hjlt, hjseen⟩ := h j (List.mem_cons_of_mem _ hj)
          have hji : i ≠ j := fun hij => hnotmem (hij ▸ hj)
          exact ⟨hjlt, by rw [List.getElem?_set_ne hji]; exact hjseen⟩

theorem check_index_ne_none (index : List Nat) : check_index index ≠ none :=
  check_index_go_ne_none index.length index (List.replicate index.length false)
    (List.length_replicate ..)

theorem check_index_eq_some_true (index : List Nat) :
    check_index index = some true ↔
      index.Nodup ∧ ∀ i ∈ index, i < index.length := by
  rw [check_index, check_index_go_eq_some_true index.length index _
    (List.length_replicate ..)]
  constructor
  · rintro ⟨hnd, h⟩
    exact ⟨hnd, fun i hi => (h i hi).1⟩
  · rintro ⟨hnd, h⟩
    refine ⟨hnd, fun i hi => ⟨h i hi, ?_⟩⟩
    rw [List.getElem?_replicate, if_pos (h i hi)]

theorem check_index_iff_perm (index : List Nat) :
    check_index index = some true ↔ index.Perm (List.range index.length) :=
  (check_index_eq_some_true index).trans (perm_range_iff index).symm

/-! ### Chunking -/

theorem chunksGo_flatten {α : Type u} (cs : Nat) (hcs : cs ≠ 0) :
    ∀ (fuel : Nat) (l : List α), l.length ≤ fuel →
      (chunksGo cs fuel l).flatten = l := by
  intro fuel
  induction fuel with
  | zero =>
    intro l hl
    cases l with
    | nil => rfl
    | cons x xs => simp at hl
  | succ f ih =>
    intro l hl
    cases l with
    | nil => rfl
    | cons x xs =>
      have hl2 : xs.length + 1 ≤ f + 1 := by simpa using hl
      have hstep : chunksGo cs (f + 1) (x :: xs)
          = (x :: xs).take cs :: chunksGo cs f ((x :: xs).drop cs) := rfl
      rw [hstep, List.flatten_cons,
        ih ((x :: xs).drop cs) (by rw [List.length_drop]; simp; omega),
        List.take_append_drop]

theorem chunks_flatten {α : Type u} (cs : Nat) (hcs : cs ≠ 0) (l : List α) :
    (chunks cs l).flatten = l := by
  rw [chunks, if_neg hcs]
  exact chunksGo_flatten cs hcs l.length l le_rfl

theorem phase1_buffer_eq {α : Type u} (data : List α) (indices : List Nat)
    (cs : Nat) (hcs : cs ≠ 0) :
    phase1_buffer data indices cs = indices.map fun idx => data[idx]? := by
  rw [phase1_buffer, ← List.map_flatten, chunks_flatten cs hcs]

/-! ### Core behaviour of the sequential and parallel apply -/

theorem getElem?_isSome_of_lt {α : Type u} (l : List α) {i : Nat} (h : i < l.length) :
    (l[i]?).isSome := by
  rw [List.getElem?_eq_getElem h]; rfl

theorem lt_of_getElem?_isSome {α : Type u} (l : List α) {i : Nat}
    (h : (l[i]?).isSome) : i < l.length := by
  by_contra hn
  rw [List.getElem?_eq_none (by omega)] at h
  exact absurd h (by simp)

theorem seq_apply_ok {α : Type u} (data : List α) (indices : List Nat)
    (hlen : indices.length = data.length) (hbd : ∀ i ∈ indices, i < data.length) :
    try_order_by_index_inplace data ⟨indices⟩
      = ApplyResult.ok (indices.filterMap fun idx => data[idx]?) := by
  rw [try_order_by_index_inplace]
  simp only
  rw [if_neg (by simp [hlen]), sequenceO_map_eq_some (fun idx : Nat => data[idx]?) indices
    (fun i hi => getElem?_isSome_of_lt data (hbd i hi))]

theorem filterMap_getElem?_getElem? {α : Type u} (data : List α) (indices : List Nat)
    (hbd : ∀ i ∈ indices, i < data.length) (k : Nat) :
    (indices.filterMap fun idx => data[idx]?)[k]?
      = (indices[k]?).bind fun idx => data[idx]? := by
  have hmap : sequenceO (indices.map fun idx => data[idx]?)
      = some (indices.filterMap fun idx => data[idx]?) :=
    sequenceO_map_eq_some (fun idx : Nat => data[idx]?) indices (fun i hi => getElem?_isSome_of_lt data (hbd i hi))
  obtain ⟨-, h2⟩ := sequenceO_getElem? _ _ hmap
  rw [h2 k, List.getElem?_map]
  cases indices[k]? <;> rfl

theorem filterMap_getElem?_length {α : Type u} (data : List α) (indices : List Nat)
    (hbd : ∀ i ∈ indices, i < data.length) :
    (indices.filterMap fun idx => data[idx]?).length = indices.length := by
  have hmap : sequenceO (indices.map fun idx => data[idx]?)
      = some (indices.filterMap fun idx => data[idx]?) :=
    sequenceO_map_eq_some (fun idx : Nat => data[idx]?) indices (fun i hi => getElem?_isSome_of_lt data (hbd i hi))
  obtain ⟨h1, -⟩ := sequenceO_getElem? _ _ hmap
  simpa using h1

theorem seq_apply_mismatch_iff {α : Type u} (data : List α) (indices : List Nat) :
    try_order_by_index_inplace data ⟨indices⟩ = ApplyResult.mismatch data ↔
      indices.length ≠ data.length := by
  rw [try_order_by_index_inplace]
  by_cases h : indices.length = data.length
  · simp only
    rw [if_neg (by simp [h])]
    cases hs : sequenceO (indices.map fun idx => data[idx]?) <;> simp [hs, h]
  · simp only
    rw [if_pos (by simp [h])]
    simp [h]

theorem seq_apply_ok_iff {α : Type u} (data : List α) (indices : List Nat) :
    (∃ res, try_order_by_index_inplace data ⟨indices⟩ = ApplyResult.ok res) ↔
      indices.length = data.length ∧ ∀ i ∈ indices, i < data.length := by
  rw [try_order_by_index_inplace]
  by_cases h : indices.length = data.length
  · simp only
    rw [if_neg (by simp [h])]
    cases hs : sequenceO (indices.map fun idx => data[idx]?) with
    | none =>
      have hns : ¬ (sequenceO (indices.map fun idx => data[idx]?)).isSome = true := by
        rw [hs]; simp
      rw [sequenceO_isSome_iff] at hns
      push_neg at hns
      obtain ⟨o, ho, hno⟩ := hns
      obtain ⟨i, hi, rfl⟩ := List.mem_map.mp ho
      have hilt : ¬ i < data.length := fun hc =>
        hno (by simpa using getElem?_isSome_of_lt data hc)
      constructor
      · rintro ⟨res, hres⟩; exact absurd hres (by simp)
      · rintro ⟨-, hbd⟩; exact absurd (hbd i hi) hilt
    | some temp =>
      have hall : ∀ o ∈ indices.map fun idx => data[idx]?, o.isSome := by
        rw [← sequenceO_isSome_iff, hs]; rfl
      constructor
      · rintro -
        refine ⟨h, fun i hi => ?_⟩
        exact lt_of_getElem?_isSome data (hall _ (List.mem_map.mpr ⟨i, hi, rfl⟩))
      · rintro -; exact ⟨temp, by simp⟩
  · simp only
    rw [if_pos (by simp [h])]
    constructor
    · rintro ⟨res, hres⟩
      exact absurd hres (by simp)
    · rintro ⟨h2, -⟩; exact absurd h2 h

theorem chunk_size_pos (len nt : Nat) (hlen : 1 ≤ len) (hnt : 1 ≤ nt) :
    (len + nt - 1) / nt ≠ 0 := by
  have : 1 ≤ (len + nt - 1) / nt := (Nat.one_le_div_iff (by omega)).mpr (by omega)
  omega

theorem par_eq_seq {α : Type u} (data : List α) (index : PermuteIndex) (nt : Nat) :
    try_order_by_index_parallel_inplace_with_threads data index nt
      = try_order_by_index_inplace data index := by
  rw [try_order_by_index_parallel_inplace_with_threads]
  by_cases h : data.length < 10000 ∨ nt ≤ 1
  · rw [if_pos h]
  · rw [if_neg h]
    push_neg at h
    obtain ⟨hlen, hnt⟩ := h
    rw [parallel_buffered, try_order_by_index_inplace]
    by_cases hm : data.length = index.data.length
    · rw [if_neg (by omega), if_neg (by omega),
        phase1_buffer_eq data index.data _ (chunk_size_pos _ _ (by omega) (by omega))]
    · rw [if_pos (by omega), if_pos (by omega)]

/-! ### The trivial cycle structure of the identity index -/

theorem getD_range_self {n s : Nat} (hs : s < n) : (List.range n).getD s 0 = s := by
  rw [List.getD_eq_getElem?_getD, List.getElem?_range hs]
  rfl

theorem collectLoop_skip (index : List Nat) (len : Nat) (todo : List Nat) :
    ∀ (V : List Bool) (S : List (Nat × Nat)),
      (∀ s ∈ todo, index.getD s 0 = s) →
      collectLoop index len todo (V, S) = (V, S) := by
  induction todo with
  | nil => intro V S _; rfl
  | cons s rest ih =>
    intro V S h
    rw [collectLoop, if_neg (by
      rintro ⟨-, hne⟩
      exact hne (h s (List.mem_cons_self ..)))]
    exact ih V S fun q hq => h q (List.mem_cons_of_mem _ hq)

/-! ### The claims -/

/-- C3: index validation (`PermuteIndex::try_new`) fails with `InvalidIndex`
exactly for the raw sequences with an out-of-range value or a duplicate, and
succeeds exactly for the true permutations of `0..len`. -/
theorem try_new_validates (index : List Nat) :
    (try_new index = some (Except.ok ⟨index⟩) ↔ index.Perm (List.range index.length))
    ∧ (try_new index = some (Except.error PermuteError.InvalidIndex) ↔
        (∃ i ∈ index, index.length ≤ i) ∨ ¬ index.Nodup) := by
  obtain ⟨b, hb⟩ := Option.ne_none_iff_exists'.mp (check_index_ne_none index)
  have hiff := check_index_iff_perm index
  have hchar := check_index_eq_some_true index
  rw [hb] at hiff hchar
  rw [try_new, hb]
  cases b with
  | true =>
    obtain ⟨hnd, hbd⟩ := hchar.mp rfl
    constructor
    · exact iff_of_true rfl (hiff.mp rfl)
    · refine iff_of_false (by simp) ?_
      rintro (⟨i, hi, hge⟩ | h)
      · exact absurd (hbd i hi) (by omega)
      · exact h hnd
  | false =>
    have hnot : ¬ (index.Nodup ∧ ∀ i ∈ index, i < index.length) := fun h =>
      absurd (hchar.mpr h) (by simp)
    constructor
    · refine iff_of_false (by simp) fun hp => ?_
      exact absurd (hiff.mpr hp) (by simp)
    · refine iff_of_true rfl ?_
      by_cases hnd : index.Nodup
      · refine Or.inl ?_
        by_contra hno
        push_neg at hno
        exact hnot ⟨hnd, fun i hi => by
          by_contra hlt
          exact absurd (hno i hi) (by omega)⟩
      · exact Or.inr hnd

/-- C4: applying an index of the wrong length fails with `LengthMismatch` and
leaves the dataset unmodified, in both the sequential and the parallel entry
point, and exactly then; with matching lengths and a validated permutation both
entry points succeed. -/
theorem apply_length_mismatch {α : Type u} (data : List α) (indices : List Nat)
    (nt : Nat) :
    (try_order_by_index_inplace data ⟨indices⟩ = ApplyResult.mismatch data ↔
      indices.length ≠ data.length)
    ∧ (try_order_by_index_parallel_inplace_with_threads data ⟨indices⟩ nt
        = ApplyResult.mismatch data ↔ indices.length ≠ data.length)
    ∧ (indices.Perm (List.range data.length) →
        ∃ res, try_order_by_index_inplace data ⟨indices⟩ = ApplyResult.ok res
          ∧ try_order_by_index_parallel_inplace_with_threads data ⟨indices⟩ nt
              = ApplyResult.ok res) := by
  refine ⟨seq_apply_mismatch_iff data indices, ?_, ?_⟩
  · rw [par_eq_seq]
    exact seq_apply_mismatch_iff data indices
  · intro hperm
    obtain ⟨res, hres⟩ := (seq_apply_ok_iff data indices).mpr
      ⟨perm_range_length hperm, perm_range_mem hperm⟩
    refine ⟨res, hres, ?_⟩
    rw [par_eq_seq]
    exact hres

/-- C8: the parallel entry point delegates entirely to the sequential apply
when the length is below 10000 or the thread count is at most 1, and runs the
buffered parallel algorithm exactly when the length reaches the threshold and
more than one thread is requested. -/
theorem parallel_threshold_delegation {α : Type u} (data : List α)
    (index : PermuteIndex) (nt : Nat) :
    try_order_by_index_parallel_inplace_with_threads data index nt
      = if 10000 ≤ data.length ∧ 2 ≤ nt then parallel_buffered data index.data nt
        else try_order_by_index_inplace data index := by
  rw [try_order_by_index_parallel_inplace_with_threads]
  by_cases h : data.length < 10000 ∨ nt ≤ 1
  · rw [if_pos h, if_neg (by omega)]
  · rw [if_neg h, if_pos (by omega)]

/-- C9: the identity permutation is applied with zero swaps (its traced swap
list is empty) and leaves the dataset unchanged, and the empty permutation on
the empty dataset is a successful no-op. -/
theorem identity_apply_noop {α : Type u} (data : List α) :
    try_order_by_index_inplace data ⟨List.range data.length⟩ = ApplyResult.ok data
    ∧ cycle_swaps (List.range data.length) data.length = []
    ∧ try_order_by_index_inplace ([] : List α) ⟨[]⟩ = ApplyResult.ok [] := by
  refine ⟨?_, ?_, rfl⟩
  · rw [seq_apply_ok data (List.range data.length) (by simp)
      (fun i hi => List.mem_range.mp hi), range_filterMap_getElem]
  · rw [cycle_swaps, collectLoop_skip _ _ _ _ _
      (fun s hs => getD_range_self (List.mem_range.mp hs))]

/-- C1: for a validated permutation of matching length, the sequential apply
returns `Ok` and afterwards the dataset at each position `i` holds the original
element at position `index[i]`. -/
theorem seq_apply_correct {α : Type u} (data : List α) (indices : List Nat)
    (hperm : indices.Perm (List.range data.length)) :
    ∃ res, try_order_by_index_inplace data ⟨indices⟩ = ApplyResult.ok res
      ∧ res.length = data.length
      ∧ ∀ k : Nat, res[k]? = (indices[k]?).bind fun idx => data[idx]? := by
  have hlen := perm_range_length hperm
  have hbd := perm_range_mem hperm
  refine ⟨_, seq_apply_ok data indices hlen hbd, ?_, ?_⟩
  · rw [filterMap_getElem?_length data indices hbd, hlen]
  · exact filterMap_getElem?_getElem? data indices hbd

/-- Witness for C1 at spec scenario 1: `index = [2,0,1]`, `data = [10,20,30]`. -/
theorem seq_apply_correct_witness :
    ∃ res, try_order_by_index_inplace [10, 20, 30] ⟨[2, 0, 1]⟩ = ApplyResult.ok res
      ∧ res.length = ([10, 20, 30] : List Nat).length
      ∧ ∀ k : Nat, res[k]? = ((([2, 0, 1] : List Nat))[k]?).bind
          fun idx => (([10, 20, 30] : List Nat))[idx]? :=
  seq_apply_correct [10, 20, 30] [2, 0, 1] (by decide)

/-- C2: for a validated permutation of matching length and any thread count the
parallel apply produces exactly the sequential apply's outcome. -/
theorem parallel_matches_sequential {α : Type u} (data : List α) (indices : List Nat)
    (hperm : indices.Perm (List.range data.length)) :
    ∀ nt : Nat, try_order_by_index_parallel_inplace_with_threads data ⟨indices⟩ nt
      = try_order_by_index_inplace data ⟨indices⟩ := by
  intro nt
  have hv := hperm
  exact par_eq_seq data ⟨indices⟩ nt

/-- Witness for C2 at `index = [2,0,1]`, `data = [10,20,30]`, 4 threads. -/
theorem parallel_matches_sequential_witness :
    try_order_by_index_parallel_inplace_with_threads [10, 20, 30] ⟨[2, 0, 1]⟩ 4
      = try_order_by_index_inplace [10, 20, 30] ⟨[2, 0, 1]⟩ :=
  parallel_matches_sequential [10, 20, 30] [2, 0, 1] (by decide) 4

/-- C6: for a validated permutation of matching length the result of apply
(sequential or parallel) is a rearrangement of the input: the multiset of
elements is preserved (no element duplicated, none lost), with exactly `len`
relocated elements. -/
theorem apply_is_rearrangement {α : Type u} (data : List α) (indices : List Nat)
    (nt : Nat) (hperm : indices.Perm (List.range data.length)) :
    ∃ res, try_order_by_index_inplace data ⟨indices⟩ = ApplyResult.ok res
      ∧ res.Perm data ∧ res.length = data.length
      ∧ try_order_by_index_parallel_inplace_with_threads data ⟨indices⟩ nt
          = ApplyResult.ok res := by
  have hlen := perm_range_length hperm
  have hbd := perm_range_mem hperm
  refine ⟨_, seq_apply_ok data indices hlen hbd, ?_, ?_,
    by rw [par_eq_seq]; exact seq_apply_ok data indices hlen hbd⟩
  · have h1 := hperm.filterMap fun idx => data[idx]?
    rw [range_filterMap_getElem] at h1
    exact h1
  · rw [filterMap_getElem?_length data indices hbd, hlen]

/-- Witness for C6 at `index = [2,0,1]`, `data = [10,20,30]`, 2 threads. -/
theorem apply_is_rearrangement_witness :
    ∃ res, try_order_by_index_inplace [10, 20, 30] ⟨[2, 0, 1]⟩ = ApplyResult.ok res
      ∧ res.Perm [10, 20, 30] ∧ res.length = ([10, 20, 30] : List Nat).length
      ∧ try_order_by_index_parallel_inplace_with_threads [10, 20, 30] ⟨[2, 0, 1]⟩ 2
          = ApplyResult.ok res :=
  apply_is_rearrangement [10, 20, 30] [2, 0, 1] 2 (by decide)

/-- C10: the seen-marker lookup of the validator is always in bounds (the
validator never reaches its out-of-bounds branch on any raw index), and under
a validated permutation of matching length neither the sequential nor the
parallel apply ever reaches an out-of-bounds unchecked access: both return
`ok`, never `ub`. -/
theorem accesses_in_bounds {α : Type u} (data : List α) (indices : List Nat)
    (hperm : indices.Perm (List.range data.length)) :
    (∀ idx : List Nat, ∃ b, check_index idx = some b)
    ∧ (∃ res, try_order_by_index_inplace data ⟨indices⟩ = ApplyResult.ok res)
    ∧ (∀ nt : Nat, ∃ res,
        try_order_by_index_parallel_inplace_with_threads data ⟨indices⟩ nt
          = ApplyResult.ok res) := by
  refine ⟨fun idx => Option.ne_none_iff_exists'.mp (check_index_ne_none idx), ?_, ?_⟩
  · exact (seq_apply_ok_iff data indices).mpr
      ⟨perm_range_length hperm, perm_range_mem hperm⟩
  · intro nt
    rw [par_eq_seq]
    exact (seq_apply_ok_iff data indices).mpr
      ⟨perm_range_length hperm, perm_range_mem hperm⟩

/-- Witness for C10 at `index = [2,0,1]`, `data = [10,20,30]`. -/
theorem accesses_in_bounds_witness :
    (∀ idx : List Nat, ∃ b, check_index idx = some b)
    ∧ (∃ res, try_order_by_index_inplace [10, 20, 30] ⟨[2, 0, 1]⟩ = ApplyResult.ok res)
    ∧ (∀ nt : Nat, ∃ res,
        try_order_by_index_parallel_inplace_with_threads [10, 20, 30] ⟨[2, 0, 1]⟩ nt
          = ApplyResult.ok res) :=
  accesses_in_bounds [10, 20, 30] [2, 0, 1] (by decide)

/-- C7: slot discipline of the parallel path's transient buffer, for any
nonzero chunk size (the code's `chunk_size = ceil(len / num_threads)` is
nonzero whenever the buffered branch runs, by `chunk_size_pos`): the
worker-owned slot ranges cover every slot of `0..len` exactly once in order, no
two workers share a slot, no worker touches a slot twice, after phase 1 every
slot of the buffer is occupied, and the phase-2 drain reads them all into
exactly `len` values. -/
theorem buffer_slot_discipline {α : Type u} (len cs : Nat) (data : List α)
    (indices : List Nat) (hcs : cs ≠ 0) (hlen : data.length = len)
    (hperm : indices.Perm (List.range len)) :
    ((chunks cs (List.range len)).flatten = List.range len)
    ∧ ((chunks cs (List.range len)).Pairwise List.Disjoint)
    ∧ (∀ sl ∈ chunks cs (List.range len), sl.Nodup)
    ∧ (∀ o ∈ phase1_buffer data indices cs, o.isSome)
    ∧ (∃ res, sequenceO (phase1_buffer data indices cs) = some res
        ∧ res.length = len) := by
  have hbd : ∀ i ∈ indices, i < data.length := fun i hi => by
    rw [hlen]; exact perm_range_mem hperm i hi
  have hflat := chunks_flatten cs hcs (List.range len)
  have hnd : (chunks cs (List.range len)).flatten.Nodup := by
    rw [hflat]; exact List.nodup_range _
  rw [List.nodup_flatten] at hnd
  refine ⟨hflat, hnd.2, hnd.1, ?_, ?_⟩
  · intro o ho
    rw [phase1_buffer_eq data indices cs hcs] at ho
    obtain ⟨i, hi, rfl⟩ := List.mem_map.mp ho
    exact getElem?_isSome_of_lt data (hbd i hi)
  · rw [phase1_buffer_eq data indices cs hcs,
      sequenceO_map_eq_some (fun idx : Nat => data[idx]?) indices
        (fun i hi => getElem?_isSome_of_lt data (hbd i hi))]
    refine ⟨_, rfl, ?_⟩
    rw [filterMap_getElem?_length data indices hbd, ← hlen]
    rw [hlen, perm_range_length hperm]

/-- Witness for C7 at `len = 5`, `chunk_size = 2`, `index = [4,3,2,1,0]`,
`data = [10,20,30,40,50]`. -/
theorem buffer_slot_discipline_witness :
    ((chunks 2 (List.range 5)).flatten = List.range 5)
    ∧ ((chunks 2 (List.range 5)).Pairwise List.Disjoint)
    ∧ (∀ sl ∈ chunks 2 (List.range 5), sl.Nodup)
    ∧ (∀ o ∈ phase1_buffer [10, 20, 30, 40, 50] [4, 3, 2, 1, 0] 2, o.isSome)
    ∧ (∃ res, sequenceO (phase1_buffer [10, 20, 30, 40, 50] [4, 3, 2, 1, 0] 2)
        = some res ∧ res.length = 5) :=
  buffer_slot_discipline 5 2 [10, 20, 30, 40, 50] [4, 3, 2, 1, 0]
    (by decide) (by decide) (by decide)

/-! ### Elementary swaps -/

theorem length_swapL {α : Type u} (l : List α) (i j : Nat) :
    (swapL l i j).length = l.length := by
  unfold swapL
  split <;> simp

theorem getElem?_swapL {α : Type u} (l : List α) {i j : Nat} (hi : i < l.length)
    (hj : j < l.length) (k : Nat) :
    (swapL l i j)[k]? = if k = j then l[i]? else if k = i then l[j]? else l[k]? := by
  unfold swapL
  rw [List.getElem?_eq_getElem hi, List.getElem?_eq_getElem hj]
  show ((l.set i l[j]).set j l[i])[k]? = _
  by_cases hkj : k = j
  · rw [if_pos hkj, hkj, List.getElem?_set_self (by simpa using hj)]
  · rw [if_neg hkj, List.getElem?_set_ne (fun h => hkj h.symm)]
    by_cases hki : k = i
    · rw [if_pos hki, hki, List.getElem?_set_self hi]
    · rw [if_neg hki, List.getElem?_set_ne (fun h => hki h.symm)]

theorem swapL_oob {α : Type u} (l : List α) {i j : Nat}
    (h : l.length ≤ i ∨ l.length ≤ j) : swapL l i j = l := by
  unfold swapL
  rcases h with h | h
  · rw [List.getElem?_eq_none h]
  · rw [List.getElem?_eq_none h]
    cases l[i]? <;> rfl

theorem swapL_self {α : Type u} (l : List α) (i : Nat) : swapL l i i = l := by
  unfold swapL
  cases hi : l[i]? with
  | none => rfl
  | some v =>
    have hilt : i < l.length := lt_of_getElem?_isSome l (by rw [hi]; rfl)
    apply List.ext_getElem?
    intro k
    by_cases hk : k = i
    · subst hk
      rw [List.getElem?_set_self (by simpa using hilt), hi]
    · rw [List.getElem?_set_ne (fun h => hk h.symm),
        List.getElem?_set_ne (fun h => hk h.symm)]

theorem swapL_swapL {α : Type u} (l : List α) (i j : Nat) :
    swapL (swapL l i j) i j = l := by
  by_cases hi : i < l.length
  · by_cases hj : j < l.length
    · have hi2 : i < (swapL l i j).length := by rw [length_swapL]; exact hi
      have hj2 : j < (swapL l i j).length := by rw [length_swapL]; exact hj
      apply List.ext_getElem?
      intro k
      rw [getElem?_swapL _ hi2 hj2 k]
      by_cases hkj : k = j
      · rw [if_pos hkj, getElem?_swapL l hi hj i]
        by_cases hij : i = j
        · rw [if_pos hij, hkj, hij]
        · rw [if_neg hij, if_pos rfl, hkj]
      · rw [if_neg hkj]
        by_cases hki : k = i
        · rw [if_pos hki, getElem?_swapL l hi hj j, if_pos rfl, hki]
        · rw [if_neg hki, getElem?_swapL l hi hj k, if_neg hkj, if_neg hki]
    · rw [swapL_oob l (Or.inr (by omega)), swapL_oob l (Or.inr (by omega))]
  · rw [swapL_oob l (Or.inl (by omega)), swapL_oob l (Or.inl (by omega))]

theorem applySwaps_cons {α : Type u} (s : Nat × Nat) (rest : List (Nat × Nat))
    (l : List α) : applySwaps (s :: rest) l = applySwaps rest (swapL l s.1 s.2) :=
  rfl

theorem applySwaps_append {α : Type u} (s1 s2 : List (Nat × Nat)) (l : List α) :
    applySwaps (s1 ++ s2) l = applySwaps s2 (applySwaps s1 l) := by
  rw [applySwaps, applySwaps, applySwaps, List.foldl_append]

theorem length_applySwaps {α : Type u} (swaps : List (Nat × Nat)) (l : List α) :
    (applySwaps swaps l).length = l.length := by
  induction swaps generalizing l with
  | nil => rfl
  | cons s rest ih => rw [applySwaps_cons, ih, length_swapL]

theorem applySwaps_reverse_applySwaps {α : Type u} (swaps : List (Nat × Nat))
    (l : List α) : applySwaps swaps.reverse (applySwaps swaps l) = l := by
  induction swaps generalizing l with
  | nil => rfl
  | cons s rest ih =>
    rw [applySwaps_cons, List.reverse_cons, applySwaps_append, ih,
      show applySwaps [s] (swapL l s.1 s.2) = swapL (swapL l s.1 s.2) s.1 s.2 from rfl,
      swapL_swapL]

/-! ### Visited bitmaps -/

theorem getD_of_lt {α : Type u} (l : List α) {x : Nat} (d : α) (h : x < l.length) :
    l.getD x d = l[x] := by
  rw [List.getD_eq_getElem?_getD, List.getElem?_eq_getElem h]
  rfl

theorem getD_set_self {V : List Bool} {x : Nat} (h : x < V.length) :
    (V.set x true).getD x false = true := by
  rw [List.getD_eq_getElem?_getD, List.getElem?_set_self (by simpa using h)]
  rfl

theorem getD_set_ne {V : List Bool} {x p : Nat} (h : x ≠ p) :
    (V.set x true).getD p false = V.getD p false := by
  rw [List.getD_eq_getElem?_getD, List.getElem?_set_ne h, ← List.getD_eq_getElem?_getD]

theorem count_false_pos {V : List Bool} {x : Nat} (hx : x < V.length)
    (hV : V.getD x false = false) : 0 < V.count false := by
  rw [List.count_pos_iff]
  have : V[x]? = some false := by
    rw [List.getElem?_eq_getElem hx]
    rw [getD_of_lt V false hx] at hV
    rw [hV]
  exact List.getElem?_mem this

theorem count_false_set_true {V : List Bool} {x : Nat} (hx : x < V.length)
    (hV : V.getD x false = false) :
    (V.set x true).count false + 1 = V.count false := by
  induction V generalizing x with
  | nil => simp at hx
  | cons b rest ih =>
    cases x with
    | zero =>
      have hb : b = false := by simpa [List.getD] using hV
      subst hb
      simp [List.count_cons]
    | succ x =>
      have hx2 : x < rest.length := by simpa using hx
      have hV2 : rest.getD x false = false := by simpa [List.getD] using hV
      have := ih hx2 hV2
      simp only [List.set_cons_succ, List.count_cons]
      omega

/-! ### The walk of one cycle -/

theorem walkCycle_visited (index : List Nat) (i : Nat) (f : Nat) (V : List Bool)
    (x : Nat) (h : V.getD x false = true) : walkCycle index i f V x = (V, []) := by
  cases f with
  | zero => rfl
  | succ f2 => rw [walkCycle, if_pos h]

theorem walkCycle_step (index : List Nat) (i : Nat) (f : Nat) (V : List Bool)
    (x : Nat) (h : V.getD x false = false) :
    walkCycle index i (f + 1) V x
      = ((walkCycle index i f (V.set x true) (index.getD x 0)).1,
         (i, index.getD x 0) :: (walkCycle index i f (V.set x true) (index.getD x 0)).2) := by
  rw [walkCycle, if_neg (by
    rw [List.getD_eq_getElem?_getD] at h
    simp [h])]

/-- Invariant of one cycle walk, by induction on the fuel.  State `(V, c, x)`:
`V` the visited bitmap (with the start `i` already marked, `x` not yet), `c`
the array obtained by applying the already-recorded swaps of this cycle to the
pre-cycle array.  `a` is the fixed reference array: positions marked during the
walk end holding their `a`-value, unvisited positions keep `a[index[p]]`. -/
theorem walkCycle_go {α : Type u} (index : List Nat) (a : List α) (len i : Nat)
    (hbd : ∀ p : Nat, p < len → index.getD p 0 < len)
    (hinj : ∀ p q : Nat, p < len → q < len → index.getD p 0 = index.getD q 0 → p = q)
    (hilt : i < len) :
    ∀ (f : Nat) (V : List Bool) (cur : List α) (x : Nat) (V2 : List Bool)
      (S : List (Nat × Nat)),
      V.length = len → cur.length = len → x < len →
      V.getD x false = false →
      V.getD i false = true →
      V.count false ≤ f →
      index.getD x 0 ≠ x →
      cur[i]? = a[index.getD x 0]? →
      (x ≠ i → cur[x]? = a[x]?) →
      (∀ p : Nat, p < len → V.getD p false = false → p ≠ i → p ≠ x →
        cur[p]? = a[index.getD p 0]?) →
      (∀ p : Nat, p < len → V.getD (index.getD p 0) false = true →
        V.getD p false = true ∨ index.getD p 0 = i) →
      (∀ p : Nat, p < len → index.getD p 0 = x → V.getD p false = true) →
      walkCycle index i f V x = (V2, S) →
      V2.length = len
      ∧ (applySwaps S cur).length = len
      ∧ (applySwaps S cur)[i]? = a[i]?
      ∧ (∀ p : Nat, p < len → V2.getD p false = true → V.getD p false = false →
          (applySwaps S cur)[p]? = a[p]?)
      ∧ (∀ p : Nat, p < len → V2.getD p false = false → p ≠ i →
          (applySwaps S cur)[p]? = a[index.getD p 0]?)
      ∧ (∀ p : Nat, p < len → V.getD p false = true → p ≠ i →
          (applySwaps S cur)[p]? = cur[p]?)
      ∧ (∀ p : Nat, V.getD p false = true → V2.getD p false = true)
      ∧ V2.getD x false = true
      ∧ (∀ p : Nat, p < len → V2.getD (index.getD p 0) false = true →
          V2.getD p false = true ∨ V.getD (index.getD p 0) false = true)
      ∧ (∀ p : Nat, p < len → V2.getD p false = true →
          V2.getD (index.getD p 0) false = true ∨ V.getD p false = true)
      ∧ (∀ p : Nat, p < len → index.getD p 0 = i → V2.getD p false = true) := by
  intro f
  induction f with
  | zero =>
    intro V cur x V2 S hV hc hx hxV hiV hfuel
    intro _ _ _ _ _ _ _
    exfalso
    have := count_false_pos (x := x) (by rw [hV]; exact hx) hxV
    omega
  | succ f2 ih =>
    intro V cur x V2 S hV hc hx hxV hiV hfuel hne h1 h2 h3 hQ h7 heq
    rw [walkCycle_step index i f2 V x hxV] at heq
    have hx2lt : index.getD x 0 < len := hbd x hx
    have hxlen : x < V.length := by rw [hV]; exact hx
    have hxi : x ≠ i := by
      intro h
      rw [h, hiV] at hxV
      exact absurd hxV (by simp)
    have hVx' : (V.set x true).getD x false = true := getD_set_self hxlen
    have hiclen : i < cur.length := by rw [hc]; exact hilt
    have hx2clen : index.getD x 0 < cur.length := by rw [hc]; exact hx2lt
    by_cases hstop : (V.set x true).getD (index.getD x 0) false = true
    · rw [walkCycle_visited index i f2 _ _ hstop] at heq
      have hV2 : V2 = V.set x true := congrArg Prod.fst heq.symm
      have hS : S = [(i, index.getD x 0)] := congrArg Prod.snd heq.symm
      have hx2V : V.getD (index.getD x 0) false = true := by
        rw [getD_set_ne (Ne.symm hne)] at hstop
        exact hstop
      have hx2i : index.getD x 0 = i := by
        rcases hQ x hx hx2V with h | h
        · rw [hxV] at h
          exact absurd h (by simp)
        · exact h
      have hd : applySwaps S cur = cur := by
        rw [hS, hx2i]
        exact swapL_self cur i
      subst hV2
      refine ⟨by simp [hV], by rw [hd, hc], by rw [hd, h1, hx2i], ?_, ?_, ?_,
        ?_, getD_set_self hxlen, ?_, ?_, ?_⟩
      · intro p hp hpV2 hpV
        by_cases hpx : p = x
        · rw [hd, hpx]
          exact h2 hxi
        · rw [getD_set_ne (Ne.symm hpx), hpV] at hpV2
          exact absurd hpV2 (by simp)
      · intro p hp hpV2 hpi
        have hpx : p ≠ x := by
          intro h
          rw [h, getD_set_self hxlen] at hpV2
          exact absurd hpV2 (by simp)
        rw [getD_set_ne (Ne.symm hpx)] at hpV2
        rw [hd]
        exact h3 p hp hpV2 hpi hpx
      · intro p hp hpV hpi
        rw [hd]
      · intro p hpV
        have hpx : p ≠ x := by
          intro h
          rw [h, hxV] at hpV
          exact absurd hpV (by simp)
        rw [getD_set_ne (Ne.symm hpx)]
        exact hpV
      · intro p hp hpV2
        by_cases hσp : index.getD p 0 = x
        · have hpV := h7 p hp hσp
          have hpx : p ≠ x := by
            intro h
            rw [h] at hpV
            rw [hpV] at hxV
            exact absurd hxV (by simp)
          exact Or.inl (by rw [getD_set_ne (Ne.symm hpx)]; exact hpV)
        · rw [getD_set_ne (Ne.symm hσp)] at hpV2
          exact Or.inr hpV2
      · intro p hp hpV2
        by_cases hpx : p = x
        · refine Or.inl ?_
          rw [hpx, hx2i, getD_set_ne hxi]
          exact hiV
        · rw [getD_set_ne (Ne.symm hpx)] at hpV2
          exact Or.inr hpV2
      · intro p hp hσp
        have hpx : p = x := hinj p x hp hx (by rw [hσp, hx2i])
        rw [hpx]
        exact getD_set_self hxlen
    · have hstop2 : (V.set x true).getD (index.getD x 0) false = false := by
        revert hstop
        cases (V.set x true).getD (index.getD x 0) false <;> simp
      have hx2x : index.getD x 0 ≠ x := hne
      have hx2i : index.getD x 0 ≠ i := by
        intro h
        rw [h, getD_set_ne hxi, hiV] at hstop2
        exact absurd hstop2 (by simp)
      have hx2V : V.getD (index.getD x 0) false = false := by
        rw [getD_set_ne (Ne.symm hx2x)] at hstop2
        exact hstop2
      have hV2 : V2 = (walkCycle index i f2 (V.set x true) (index.getD x 0)).1 :=
        congrArg Prod.fst heq.symm
      have hS : S = (i, index.getD x 0) ::
          (walkCycle index i f2 (V.set x true) (index.getD x 0)).2 :=
        congrArg Prod.snd heq.symm
      have hc'i : (swapL cur i (index.getD x 0))[i]? = cur[index.getD x 0]? := by
        rw [getElem?_swapL cur hiclen hx2clen i, if_neg (fun h => hx2i h.symm), if_pos rfl]
      have hc'x2 : (swapL cur i (index.getD x 0))[index.getD x 0]? = cur[i]? := by
        rw [getElem?_swapL cur hiclen hx2clen (index.getD x 0), if_pos rfl]
      have hc'other : ∀ p : Nat, p ≠ i → p ≠ index.getD x 0 →
          (swapL cur i (index.getD x 0))[p]? = cur[p]? := by
        intro p hpi hpx2
        rw [getElem?_swapL cur hiclen hx2clen p, if_neg hpx2, if_neg hpi]
      obtain ⟨g1, g2, g3, g4, g5, g6, g7, g8, g9, g10, g11⟩ :=
        ih (V.set x true) (swapL cur i (index.getD x 0)) (index.getD x 0)
          (walkCycle index i f2 (V.set x true) (index.getD x 0)).1
          (walkCycle index i f2 (V.set x true) (index.getD x 0)).2
          (by simp [hV])
          (by rw [length_swapL, hc])
          hx2lt
          hstop2
          (by rw [getD_set_ne hxi]; exact hiV)
          (by
            have := count_false_set_true hxlen hxV
            omega)
          (by
            intro h
            exact hne (hinj (index.getD x 0) x hx2lt hx h))
          (by
            rw [hc'i]
            exact h3 (index.getD x 0) hx2lt hx2V hx2i hx2x)
          (fun _ => by rw [hc'x2]; exact h1)
          (by
            intro p hp hpV' hpi hpx2
            have hpx : p ≠ x := by
              intro h
              rw [h, hVx'] at hpV'
              exact absurd hpV' (by simp)
            rw [getD_set_ne (Ne.symm hpx)] at hpV'
            rw [hc'other p hpi hpx2]
            exact h3 p hp hpV' hpi hpx)
          (by
            intro p hp hpV'
            by_cases hσp : index.getD p 0 = x
            · have hpV := h7 p hp hσp
              have hpx : p ≠ x := by
                intro h
                rw [h] at hpV
                rw [hxV] at hpV
                exact absurd hpV (by simp)
              exact Or.inl (by rw [getD_set_ne (Ne.symm hpx)]; exact hpV)
            · rw [getD_set_ne (Ne.symm hσp)] at hpV'
              rcases hQ p hp hpV' with h | h
              · have hpx : p ≠ x := by
                  intro hh
                  rw [hh] at h
                  rw [hxV] at h
                  exact absurd h (by simp)
                exact Or.inl (by rw [getD_set_ne (Ne.symm hpx)]; exact h)
              · exact Or.inr h)
          (by
            intro p hp hσp
            have hpx : p = x := hinj p x hp hx hσp
            rw [hpx]
            exact getD_set_self hxlen)
          rfl
      have hd : applySwaps S cur
          = applySwaps (walkCycle index i f2 (V.set x true) (index.getD x 0)).2
              (swapL cur i (index.getD x 0)) := by
        rw [hS]
        rfl
      subst hV2
      refine ⟨g1, by rw [hd]; exact g2, by rw [hd]; exact g3, ?_, ?_, ?_, ?_, ?_,
        ?_, ?_, g11⟩
      · intro p hp hpV2 hpV
        by_cases hpx : p = x
        · rw [hd, hpx]
          rw [g6 x hx hVx' hxi]
          rw [hc'other x hxi (Ne.symm hx2x)]
          exact h2 hxi
        · rw [hd]
          exact g4 p hp hpV2 (by rw [getD_set_ne (Ne.symm hpx)]; exact hpV)
      · intro p hp hpV2 hpi
        rw [hd]
        exact g5 p hp hpV2 hpi
      · intro p hp hpV hpi
        have hpx : p ≠ x := by
          intro h
          rw [h] at hpV
          rw [hxV] at hpV
          exact absurd hpV (by simp)
        have hpx2 : p ≠ index.getD x 0 := by
          intro h
          rw [h, hx2V] at hpV
          exact absurd hpV (by simp)
        rw [hd, g6 p hp (by rw [getD_set_ne (Ne.symm hpx)]; exact hpV) hpi]
        exact hc'other p hpi hpx2
      · intro p hpV
        have hpx : p ≠ x := by
          intro h
          rw [h] at hpV
          rw [hxV] at hpV
          exact absurd hpV (by simp)
        exact g7 p (by rw [getD_set_ne (Ne.symm hpx)]; exact hpV)
      · exact g7 x hVx'
      · intro p hp hpV2
        rcases g9 p hp hpV2 with h | h
        · exact Or.inl h
        · by_cases hσp : index.getD p 0 = x
          · have hpV := h7 p hp hσp
            have hpx : p ≠ x := by
              intro hh
              rw [hh] at hpV
              rw [hxV] at hpV
              exact absurd hpV (by simp)
            exact Or.inl (g7 p (by rw [getD_set_ne (Ne.symm hpx)]; exact hpV))
          · rw [getD_set_ne (Ne.symm hσp)] at h
            exact Or.inr h
      · intro p hp hpV2
        rcases g10 p hp hpV2 with h | h
        · exact Or.inl h
        · by_cases hpx : p = x
          · exact Or.inl (by rw [hpx]; exact g8)
          · rw [getD_set_ne (Ne.symm hpx)] at h
            exact Or.inr h

/-! ### The outer loop over cycle starts -/

theorem collectLoop_cons_walk (index : List Nat) (len s : Nat) (rest : List Nat)
    (V : List Bool) (S0 : List (Nat × Nat))
    (h : V.getD s false = false ∧ index.getD s 0 ≠ s) :
    collectLoop index len (s :: rest) (V, S0)
      = collectLoop index len rest
          ((walkCycle index s (len + 1) V s).1,
           S0 ++ (walkCycle index s (len + 1) V s).2) := by
  rw [collectLoop, if_pos h]

theorem collectLoop_cons_skip (index : List Nat) (len s : Nat) (rest : List Nat)
    (V : List Bool) (S0 : List (Nat × Nat))
    (h : ¬ (V.getD s false = false ∧ index.getD s 0 ≠ s)) :
    collectLoop index len (s :: rest) (V, S0)
      = collectLoop index len rest (V, S0) := by
  rw [collectLoop, if_neg h]

/-- Invariant of the outer loop of the cycle-swap algorithm: between cycles the
visited set is closed under the permutation in both directions, visited
positions already hold their final value, unvisited positions still hold the
target value. -/
theorem collectLoop_go {α : Type u} (index : List Nat) (a : List α) (len : Nat)
    (hbd : ∀ p : Nat, p < len → index.getD p 0 < len)
    (hinj : ∀ p q : Nat, p < len → q < len → index.getD p 0 = index.getD q 0 → p = q) :
    ∀ (todo : List Nat) (V : List Bool) (S0 : List (Nat × Nat)) (cur : List α)
      (Vf : List Bool) (Sf : List (Nat × Nat)),
      (∀ s ∈ todo, s < len) →
      V.length = len → cur.length = len →
      (∀ p : Nat, p < len → V.getD p false = true → cur[p]? = a[p]?) →
      (∀ p : Nat, p < len → V.getD p false = false → cur[p]? = a[index.getD p 0]?) →
      (∀ p : Nat, p < len → V.getD p false = true →
        V.getD (index.getD p 0) false = true) →
      (∀ p : Nat, p < len → V.getD (index.getD p 0) false = true →
        V.getD p false = true) →
      collectLoop index len todo (V, S0) = (Vf, Sf) →
      ∃ Snew, Sf = S0 ++ Snew
        ∧ (applySwaps Snew cur).length = cur.length
        ∧ (∀ p : Nat, p < len → Vf.getD p false = true →
            (applySwaps Snew cur)[p]? = a[p]?)
        ∧ (∀ p : Nat, p < len → Vf.getD p false = false →
            (applySwaps Snew cur)[p]? = a[index.getD p 0]?)
        ∧ (∀ p : Nat, V.getD p false = true → Vf.getD p false = true)
        ∧ (∀ s ∈ todo, Vf.getD s false = true ∨ index.getD s 0 = s) := by
  intro todo
  induction todo with
  | nil =>
    intro V S0 cur Vf Sf htodo hV hcur I2 I3 I4a I4b heq
    have hVf : Vf = V := congrArg Prod.fst heq.symm
    have hSf : Sf = S0 := congrArg Prod.snd heq.symm
    subst hVf
    refine ⟨[], by rw [hSf, List.append_nil], rfl, ?_, ?_, fun p hp => hp, by simp⟩
    · exact I2
    · exact I3
  | cons s rest ih =>
    intro V S0 cur Vf Sf htodo hV hcur I2 I3 I4a I4b heq
    have hs : s < len := htodo s (List.mem_cons_self ..)
    have hslen : s < V.length := by rw [hV]; exact hs
    have hrest : ∀ q ∈ rest, q < len := fun q hq => htodo q (List.mem_cons_of_mem _ hq)
    by_cases hcond : V.getD s false = false ∧ index.getD s 0 ≠ s
    · obtain ⟨hsV, hsne⟩ := hcond
      rw [collectLoop_cons_walk index len s rest V S0 ⟨hsV, hsne⟩,
        walkCycle_step index s len V s hsV] at heq
      have hσs_lt : index.getD s 0 < len := hbd s hs
      have hσsV : V.getD (index.getD s 0) false = false := by
        cases hh : V.getD (index.getD s 0) false with
        | false => rfl
        | true =>
          have := I4b s hs hh
          rw [hsV] at this
          exact absurd this (by simp)
      have hVs' : (V.set s true).getD s false = true := getD_set_self hslen
      have hσsV' : (V.set s true).getD (index.getD s 0) false = false := by
        rw [getD_set_ne (Ne.symm hsne)]
        exact hσsV
      have hsclen : s < cur.length := by rw [hcur]; exact hs
      have hσsclen : index.getD s 0 < cur.length := by rw [hcur]; exact hσs_lt
      have hcur's : (swapL cur s (index.getD s 0))[s]? = cur[index.getD s 0]? := by
        rw [getElem?_swapL cur hsclen hσsclen s, if_neg (fun h => hsne h.symm),
          if_pos rfl]
      have hcur'σs : (swapL cur s (index.getD s 0))[index.getD s 0]? = cur[s]? := by
        rw [getElem?_swapL cur hsclen hσsclen (index.getD s 0), if_pos rfl]
      have hcur'other : ∀ p : Nat, p ≠ s → p ≠ index.getD s 0 →
          (swapL cur s (index.getD s 0))[p]? = cur[p]? := by
        intro p hps hpσs
        rw [getElem?_swapL cur hsclen hσsclen p, if_neg hpσs, if_neg hps]
      obtain ⟨g1, g2, g3, g4, g5, g6, g7, g8, g9, g10, g11⟩ :=
        walkCycle_go index a len s hbd hinj hs len (V.set s true)
          (swapL cur s (index.getD s 0)) (index.getD s 0)
          (walkCycle index s len (V.set s true) (index.getD s 0)).1
          (walkCycle index s len (V.set s true) (index.getD s 0)).2
          (by simp [hV])
          (by rw [length_swapL, hcur])
          hσs_lt
          hσsV'
          hVs'
          (le_trans (List.count_le_length ..) (by simp [hV]))
          (by
            intro h
            exact hsne (hinj (index.getD s 0) s hσs_lt hs h))
          (by
            rw [hcur's]
            exact I3 (index.getD s 0) hσs_lt hσsV)
          (fun _ => by
            rw [hcur'σs]
            exact I3 s hs hsV)
          (by
            intro p hp hpV' hps hpσs
            have hpx : p ≠ s := hps
            rw [getD_set_ne (Ne.symm hpx)] at hpV'
            rw [hcur'other p hps hpσs]
            exact I3 p hp hpV')
          (by
            intro p hp hpV'
            by_cases hσp : index.getD p 0 = s
            · exact Or.inr hσp
            · rw [getD_set_ne (Ne.symm hσp)] at hpV'
              have hpV := I4b p hp hpV'
              have hps : p ≠ s := by
                intro h
                rw [h] at hpV
                rw [hsV] at hpV
                exact absurd hpV (by simp)
              exact Or.inl (by rw [getD_set_ne (Ne.symm hps)]; exact hpV))
          (by
            intro p hp hσp
            have hps : p = s := hinj p s hp hs hσp
            rw [hps]
            exact hVs')
          rfl
      have hI2' : ∀ p : Nat, p < len →
          (walkCycle index s len (V.set s true) (index.getD s 0)).1.getD p false = true →
          (applySwaps (walkCycle index s len (V.set s true) (index.getD s 0)).2
            (swapL cur s (index.getD s 0)))[p]? = a[p]? := by
        intro p hp hpV2
        by_cases hpV' : (V.set s true).getD p false = true
        · by_cases hps : p = s
          · rw [hps]
            exact g3
          · have hpV : V.getD p false = true := by
              rw [getD_set_ne (fun h => hps h.symm)] at hpV'
              exact hpV'
            have hpσs : p ≠ index.getD s 0 := by
              intro h
              rw [h] at hpV
              rw [hσsV] at hpV
              exact absurd hpV (by simp)
            rw [g6 p hp hpV' hps, hcur'other p hps hpσs]
            exact I2 p hp hpV
        · have hpV'f : (V.set s true).getD p false = false := by
            revert hpV'
            cases (V.set s true).getD p false <;> simp
          exact g4 p hp hpV2 hpV'f
      have hI3' : ∀ p : Nat, p < len →
          (walkCycle index s len (V.set s true) (index.getD s 0)).1.getD p false = false →
          (applySwaps (walkCycle index s len (V.set s true) (index.getD s 0)).2
            (swapL cur s (index.getD s 0)))[p]? = a[index.getD p 0]? := by
        intro p hp hpV2
        have hps : p ≠ s := by
          intro h
          rw [h] at hpV2
          rw [g7 s hVs'] at hpV2
          exact absurd hpV2 (by simp)
        exact g5 p hp hpV2 hps
      have hI4a' : ∀ p : Nat, p < len →
          (walkCycle index s len (V.set s true) (index.getD s 0)).1.getD p false = true →
          (walkCycle index s len (V.set s true) (index.getD s 0)).1.getD
            (index.getD p 0) false = true := by
        intro p hp hpV2
        rcases g10 p hp hpV2 with h | h
        · exact h
        · by_cases hps : p = s
          · rw [hps]
            exact g8
          · have hpV : V.getD p false = true := by
              rw [getD_set_ne (fun hh => hps hh.symm)] at h
              exact h
            have hσpV : V.getD (index.getD p 0) false = true := I4a p hp hpV
            have hσps : index.getD p 0 ≠ s := by
              intro hh
              rw [hh] at hσpV
              rw [hsV] at hσpV
              exact absurd hσpV (by simp)
            exact g7 (index.getD p 0)
              (by rw [getD_set_ne (Ne.symm hσps)]; exact hσpV)
      have hI4b' : ∀ p : Nat, p < len →
          (walkCycle index s len (V.set s true) (index.getD s 0)).1.getD
            (index.getD p 0) false = true →
          (walkCycle index s len (V.set s true) (index.getD s 0)).1.getD p false
            = true := by
        intro p hp hpV2
        rcases g9 p hp hpV2 with h | h
        · exact h
        · by_cases hσps : index.getD p 0 = s
          · exact g11 p hp hσps
          · have hσpV : V.getD (index.getD p 0) false = true := by
              rw [getD_set_ne (Ne.symm hσps)] at h
              exact h
            have hpV : V.getD p false = true := I4b p hp hσpV
            have hps : p ≠ s := by
              intro hh
              rw [hh] at hpV
              rw [hsV] at hpV
              exact absurd hpV (by simp)
            exact g7 p (by rw [getD_set_ne (Ne.symm hps)]; exact hpV)
      obtain ⟨Snew2, hSf2, hlen2, F2, F3, Fmono, Fcover⟩ :=
        ih (walkCycle index s len (V.set s true) (index.getD s 0)).1
          (S0 ++ ((s, index.getD s 0) ::
            (walkCycle index s len (V.set s true) (index.getD s 0)).2))
          (applySwaps (walkCycle index s len (V.set s true) (index.getD s 0)).2
            (swapL cur s (index.getD s 0)))
          Vf Sf hrest g1 g2 hI2' hI3' hI4a' hI4b' heq
      have hcomp : applySwaps (((s, index.getD s 0) ::
            (walkCycle index s len (V.set s true) (index.getD s 0)).2) ++ Snew2) cur
          = applySwaps Snew2
              (applySwaps (walkCycle index s len (V.set s true) (index.getD s 0)).2
                (swapL cur s (index.getD s 0))) := by
        rw [applySwaps_append]
        rfl
      refine ⟨((s, index.getD s 0) ::
          (walkCycle index s len (V.set s true) (index.getD s 0)).2) ++ Snew2,
        by rw [hSf2, List.append_assoc], ?_, ?_, ?_, ?_, ?_⟩
      · rw [hcomp, hlen2, g2, hcur]
      · intro p hp hpVf
        rw [hcomp]
        exact F2 p hp hpVf
      · intro p hp hpVf
        rw [hcomp]
        exact F3 p hp hpVf
      · intro p hpV
        have hps : p ≠ s := by
          intro h
          rw [h] at hpV
          rw [hsV] at hpV
          exact absurd hpV (by simp)
        exact Fmono p (g7 p (by rw [getD_set_ne (Ne.symm hps)]; exact hpV))
      · intro q hq
        rcases List.mem_cons.mp hq with rfl | hq2
        · exact Or.inl (Fmono q (g7 q hVs'))
        · exact Fcover q hq2
    · rw [collectLoop_cons_skip index len s rest V S0 hcond] at heq
      obtain ⟨Snew, hSf, hlen2, F2, F3, Fmono, Fcover⟩ :=
        ih V S0 cur Vf Sf hrest hV hcur I2 I3 I4a I4b heq
      refine ⟨Snew, hSf, hlen2, F2, F3, Fmono, ?_⟩
      intro q hq
      rcases List.mem_cons.mp hq with rfl | hq2
      · cases hh : V.getD q false with
        | true => exact Or.inl (Fmono q hh)
        | false =>
          refine Or.inr ?_
          by_contra hne
          exact hcond ⟨hh, hne⟩
      · exact Fcover q hq2

/-! ### Correctness of the cycle-swap permuter -/

theorem getD_replicate_false (len p : Nat) :
    (List.replicate len false).getD p false = false := by
  rw [List.getD_eq_getElem?_getD, List.getElem?_replicate]
  split <;> rfl

/-- Applying the full traced swap list to the target array recovers the
original array: the forward form of the cycle-swap correctness. -/
theorem cycle_swaps_apply {α : Type u} (index : List Nat) (a t : List α) (len : Nat)
    (halen : a.length = len) (htlen : t.length = len)
    (hbd : ∀ p : Nat, p < len → index.getD p 0 < len)
    (hinj : ∀ p q : Nat, p < len → q < len → index.getD p 0 = index.getD q 0 → p = q)
    (ht : ∀ p : Nat, p < len → t[p]? = a[index.getD p 0]?) :
    applySwaps (cycle_swaps index len) t = a := by
  obtain ⟨Snew, hSf, hlen2, F2, F3, Fmono, Fcover⟩ :=
    collectLoop_go index a len hbd hinj (List.range len) (List.replicate len false)
      [] t
      (collectLoop index len (List.range len) (List.replicate len false, [])).1
      (collectLoop index len (List.range len) (List.replicate len false, [])).2
      (fun s hs => List.mem_range.mp hs)
      (List.length_replicate ..)
      htlen
      (fun p hp hpV => absurd (hpV.symm.trans (getD_replicate_false len p))
        (by simp))
      (fun p hp _ => ht p hp)
      (fun p hp hpV => absurd (hpV.symm.trans (getD_replicate_false len p))
        (by simp))
      (fun p hp hpV => absurd (hpV.symm.trans
        (getD_replicate_false len (index.getD p 0))) (by simp))
      rfl
  have hcs : cycle_swaps index len = Snew := by
    rw [cycle_swaps, hSf, List.nil_append]
  rw [hcs]
  apply List.ext_getElem?
  intro k
  by_cases hk : k < len
  · cases hVf :
      (collectLoop index len (List.range len) (List.replicate len false, [])).1.getD
        k false with
    | true => exact F2 k hk hVf
    | false =>
      rcases Fcover k (List.mem_range.mpr hk) with h | h
      · rw [hVf] at h
        exact absurd h (by simp)
      · rw [F3 k hk hVf, h]
  · rw [List.getElem?_eq_none (by rw [hlen2, htlen]; omega),
      List.getElem?_eq_none (by rw [halen]; omega)]

/-- The cycle-swap permuter of the spec computes exactly the result of the
sequential apply of the code. -/
theorem cycleSwapApply_eq {α : Type u} (data : List α) (index : List Nat)
    (hperm : index.Perm (List.range data.length)) :
    try_order_by_index_inplace data ⟨index⟩
      = ApplyResult.ok (cycleSwapApply data index) := by
  have hlen := perm_range_length hperm
  have hbdm := perm_range_mem hperm
  have hnd : index.Nodup := ((perm_range_iff index).mp (by
    rw [hlen]
    exact hperm)).1
  have hbd : ∀ p : Nat, p < data.length → index.getD p 0 < data.length := by
    intro p hp
    have hpi : p < index.length := by rw [hlen]; exact hp
    rw [getD_of_lt index 0 hpi]
    exact hbdm _ (List.getElem_mem hpi)
  have hinj : ∀ p q : Nat, p < data.length → q < data.length →
      index.getD p 0 = index.getD q 0 → p = q := by
    intro p q hp hq h
    have hpi : p < index.length := by rw [hlen]; exact hp
    have hqi : q < index.length := by rw [hlen]; exact hq
    rw [getD_of_lt index 0 hpi, getD_of_lt index 0 hqi] at h
    exact (hnd.getElem_inj_iff).mp h
  have hres_ok := seq_apply_ok data index hlen hbdm
  have hreslen : (index.filterMap fun idx => data[idx]?).length = data.length := by
    rw [filterMap_getElem?_length data index hbdm, hlen]
  have hresElem : ∀ p : Nat, p < data.length →
      (index.filterMap fun idx => data[idx]?)[p]? = data[index.getD p 0]? := by
    intro p hp
    have hpi : p < index.length := by rw [hlen]; exact hp
    rw [filterMap_getElem?_getElem? data index hbdm p, List.getElem?_eq_getElem hpi,
      getD_of_lt index 0 hpi]
    rfl
  have hkey := cycle_swaps_apply index data (index.filterMap fun idx => data[idx]?)
    data.length rfl hreslen hbd hinj hresElem
  have hcycle : cycleSwapApply data index = index.filterMap fun idx => data[idx]? := by
    rw [cycleSwapApply]
    calc applySwaps (cycle_swaps index data.length).reverse data
        = applySwaps (cycle_swaps index data.length).reverse
            (applySwaps (cycle_swaps index data.length)
              (index.filterMap fun idx => data[idx]?)) := by rw [hkey]
      _ = index.filterMap fun idx => data[idx]? := applySwaps_reverse_applySwaps ..
  rw [hcycle]
  exact hres_ok

/-- C5: the sequential apply is extensionally equivalent to the spec's
cycle-swap algorithm (trace each cycle recording pending swaps, reverse the
full swap list, apply the swaps in that order), and that algorithm realizes the
exact target permutation by elementary swaps alone. -/
theorem seq_apply_cycle_swap_equiv {α : Type u} (data : List α) (indices : List Nat)
    (hperm : indices.Perm (List.range data.length)) :
    try_order_by_index_inplace data ⟨indices⟩
      = ApplyResult.ok (cycleSwapApply data indices)
    ∧ ∀ k : Nat, (cycleSwapApply data indices)[k]?
        = (indices[k]?).bind fun idx => data[idx]? := by
  have h := cycleSwapApply_eq data indices hperm
  refine ⟨h, ?_⟩
  have hlen := perm_range_length hperm
  have hbdm := perm_range_mem hperm
  have h2 := seq_apply_ok data indices hlen hbdm
  have h3 : cycleSwapApply data indices = indices.filterMap fun idx => data[idx]? := by
    have := h.symm.trans h2
    exact (ApplyResult.ok.injEq ..).mp this
  intro k
  rw [h3]
  exact filterMap_getElem?_getElem? data indices hbdm k

/-- Witness for C5 at spec scenario 1: `index = [2,0,1]`, `data = [10,20,30]`. -/
theorem seq_apply_cycle_swap_equiv_witness :
    try_order_by_index_inplace [10, 20, 30] ⟨[2, 0, 1]⟩
      = ApplyResult.ok (cycleSwapApply [10, 20, 30] [2, 0, 1])
    ∧ ∀ k : Nat, (cycleSwapApply [10, 20, 30] [2, 0, 1])[k]?
        = ((([2, 0, 1] : List Nat))[k]?).bind
            fun idx => (([10, 20, 30] : List Nat))[idx]? :=
  seq_apply_cycle_swap_equiv [10, 20, 30] [2, 0, 1] (by decide)

end IndexPermute
